import Mathlib

attribute [local semireducible] Rat.add Rat.sub Rat.mul Rat.inv

set_option exponentiation.threshold 2000

/-!
Verification of the numeric utility module of `src/gst-plugin/src/utils.rs`:
the continued-fraction rational approximation `f64_to_fraction` and its
supporting Euclidean `gcd`.  IEEE binary64 values are embedded as exact
rationals (together with NaN and the infinities); the only inexact double
operations reachable in this code are subtraction and division, modelled as
the exact rational result rounded to nearest, ties to even, at binary64
precision.
-/

namespace GstPlugin

/-- The `while b != 0` loop of `gcd`, with explicit fuel; the remainder
strictly decreases below `b`, so `b + 1` steps always suffice. -/
def gcdF : ℕ → ℕ → ℕ → ℕ
  | 0, a, _ => a
  | fuel + 1, a, b => if b = 0 then a else gcdF fuel b (a % b)

/-- `gcd` from `src/gst-plugin/src/utils.rs`: Euclid's algorithm by repeated
remainder (swap `a, b` with `b, a % b` until `b` is zero). -/
def gcd (a b : ℕ) : ℕ := gcdF (b + 1) a b

/-- Base-2 logarithm with explicit fuel: `log2F fuel n = ⌊log₂ n⌋` whenever
`1 ≤ n < 2 ^ fuel`. -/
def log2F : ℕ → ℕ → ℕ
  | 0, _ => 0
  | fuel + 1, n => if n < 2 then 0 else log2F fuel (n / 2) + 1

/-- `⌊log₂ n⌋` for `n ≥ 1` (any `n` serves as its own fuel since `n < 2 ^ n`). -/
def natLog2 (n : ℕ) : ℕ := log2F n n

/-- Round a rational to the nearest integer, ties to even (the integer part
`⌊m⌋` is kept when the fractional part is below one half, bumped when above,
and ties go to the even neighbour). -/
def rne (m : ℚ) : ℤ :=
  if m - ⌊m⌋ < 1 / 2 then ⌊m⌋
  else if 1 / 2 < m - ⌊m⌋ then ⌊m⌋ + 1
  else if ⌊m⌋ % 2 = 0 then ⌊m⌋ else ⌊m⌋ + 1

/-- The rational `2 ^ s` for an integer `s`, computed through `Nat.pow` so that
it evaluates in constant recursion depth. -/
def pow2 : ℤ → ℚ
  | .ofNat k => ((2 ^ k : ℕ) : ℚ)
  | .negSucc k => Rat.divInt 1 ((2 : ℤ) ^ (k + 1))

/-- For positive `x`, the binade exponent `e` with `2 ^ e ≤ x < 2 ^ (e + 1)`. -/
def ratExp (x : ℚ) : ℤ :=
  let e0 : ℤ := (natLog2 x.num.natAbs : ℤ) - (natLog2 x.den : ℤ)
  if x < pow2 e0 then e0 - 1 else e0

/-- An IEEE binary64 value: a finite value given by its exact rational value,
NaN, or one of the two infinities. -/
inductive F64 where
  | fin : ℚ → F64
  | nan : F64
  | inf : F64
  | ninf : F64
deriving DecidableEq

/-- Round-to-nearest-even at binary64 precision: 53 significant bits, subnormal
values rounded at scale `2 ^ (-1074)`, overflow to infinity at `2 ^ 1024`. -/
def roundF64 (x : ℚ) : F64 :=
  if x = 0 then .fin 0
  else
    let s : ℤ := max (ratExp |x| - 52) (-1074)
    let r : ℚ := (rne (x / pow2 s) : ℚ) * pow2 s
    if pow2 1024 ≤ |r| then (if 0 < x then .inf else .ninf) else .fin r

/-- IEEE absolute value (`f64::abs`). -/
def fabs : F64 → F64
  | .fin q => .fin |q|
  | .nan => .nan
  | .inf => .inf
  | .ninf => .inf

/-- IEEE `<` comparison: any comparison involving NaN is false. -/
def flt : F64 → F64 → Bool
  | .fin a, .fin b => decide (a < b)
  | .fin _, .inf => true
  | .ninf, .fin _ => true
  | .ninf, .inf => true
  | _, _ => false

/-- IEEE `>` comparison. -/
def fgt (a b : F64) : Bool := flt b a

/-- IEEE subtraction: the exact difference rounded to binary64. -/
def fsub : F64 → F64 → F64
  | .fin a, .fin b => roundF64 (a - b)
  | .nan, _ => .nan
  | _, .nan => .nan
  | .inf, .inf => .nan
  | .ninf, .ninf => .nan
  | .inf, _ => .inf
  | .ninf, _ => .ninf
  | _, .inf => .ninf
  | _, .ninf => .inf

/-- IEEE division: the exact quotient rounded to binary64; division of a
nonzero value by zero gives a signed infinity, `0 / 0` gives NaN. -/
def fdiv : F64 → F64 → F64
  | .fin a, .fin b =>
    if b = 0 then (if a = 0 then .nan else if 0 < a then .inf else .ninf)
    else roundF64 (a / b)
  | .nan, _ => .nan
  | _, .nan => .nan
  | .inf, .inf => .nan
  | .inf, .ninf => .nan
  | .ninf, .inf => .nan
  | .ninf, .ninf => .nan
  | .inf, .fin b => if b < 0 then .ninf else .inf
  | .ninf, .fin b => if b < 0 then .inf else .ninf
  | .fin _, _ => .fin 0

/-- Rust `as u32` cast from `f64`: truncation toward zero, saturating at the
`u32` range, with NaN mapped to 0. -/
def castU32 : F64 → ℕ
  | .fin q => if q < 0 then 0 else if (4294967295 : ℚ) < q then 4294967295 else (⌊q⌋).toNat
  | .nan => 0
  | .inf => 4294967295
  | .ninf => 0

/-- `i32::MAX`. -/
def i32MAX : ℕ := 2147483647

/-- The source constant `MAX_ITERATIONS`. -/
def MAX_ITERATIONS : ℕ := 30

/-- The source constant `EPSILON: f64 = 1.0e-10` (the double nearest 10⁻¹⁰). -/
def EPSILON : F64 := roundF64 (1 / 10000000000)

/-- The source constant `MAX_ERROR: f64 = 1.0e-20` (the double nearest 10⁻²⁰). -/
def MAX_ERROR : F64 := roundF64 (1 / 100000000000000000000)

/-- The loop-local state of `f64_to_fraction`: the current expansion value `q`,
the previous and current convergents, and whether `break` was reached. -/
structure LState where
  q : F64
  n0 : ℕ
  d0 : ℕ
  n1 : ℕ
  d1 : ℕ
  finished : Bool
deriving DecidableEq

/-- One iteration of the `for _ in 0..MAX_ITERATIONS` loop of
`f64_to_fraction`; a `break` sets `finished`, freezing the state. -/
def step (val : F64) (s : LState) : LState :=
  if s.finished then s
  else
    let a : ℕ := castU32 s.q
    let f : F64 := fsub s.q (.fin (a : ℚ))
    if a ≠ 0 ∧ (s.n1 > i32MAX / a ∨ s.d1 > i32MAX / a ∨
        a * s.n1 > i32MAX - s.n0 ∨ a * s.d1 > i32MAX - s.d0) then
      { s with finished := true }
    else
      let n := a * s.n1 + s.n0
      let d := a * s.d1 + s.d0
      if flt f EPSILON then ⟨s.q, s.n1, s.d1, n, d, true⟩
      else
        let r := fdiv (.fin 1) f
        let g := gcd n d
        let n1 := if g ≠ 0 then n / g else n
        let d1 := if g ≠ 0 then d / g else d
        if flt (fabs (fsub (fdiv (.fin (n : ℚ)) (.fin (d : ℚ))) val)) MAX_ERROR then
          ⟨s.q, s.n1, s.d1, n1, d1, true⟩
        else
          ⟨r, s.n1, s.d1, n1, d1, false⟩

/-- Iterate `step` a fixed number of times. -/
def runLoop (val : F64) : ℕ → LState → LState
  | 0, s => s
  | k + 1, s => runLoop val k (step val s)

/-- The initial convergent state `n0 = 0, d0 = 1, n1 = 1, d1 = 0`. -/
def initState (q : F64) : LState := ⟨q, 0, 1, 1, 0, false⟩

/-- The state after the full loop of `f64_to_fraction` on input `val`. -/
def loopFinal (val : F64) : LState := runLoop val MAX_ITERATIONS (initState (fabs val))

/-- `Rational32::new` from the num crate: divide both components by their gcd
and move the sign to the numerator.  All divisions are exact, so `Int`
division here agrees with Rust `i32` division. -/
def mkRational32 (n d : ℤ) : ℤ × ℤ :=
  let g : ℤ := Int.gcd n d
  if d < 0 then (-(n / g), -(d / g)) else (n / g, d / g)

/-- `f64_to_fraction` from `src/gst-plugin/src/utils.rs`. -/
def f64_to_fraction (val : F64) : Option (ℤ × ℤ) :=
  let negative := flt val (.fin 0)
  if fgt (fabs val) (.fin (i32MAX : ℚ)) then none
  else
    let s := loopFinal val
    if s.d1 = 0 then none
    else if negative then some (mkRational32 (-(s.n1 : ℤ)) (s.d1 : ℤ))
    else some (mkRational32 (s.n1 : ℤ) (s.d1 : ℤ))

/-- The number of loop iterations actually entered (a `break` iteration counts;
iterations after `finished` do not). -/
def itersUsedAux (val : F64) : ℕ → LState → ℕ
  | 0, _ => 0
  | k + 1, s => if s.finished then 0 else itersUsedAux val k (step val s) + 1

/-- The number of iterations `f64_to_fraction`'s loop executes on `val`. -/
def itersUsed (val : F64) : ℕ := itersUsedAux val MAX_ITERATIONS (initState (fabs val))

/-!
Supporting lemmas.
-/

theorem gcdF_eq : ∀ fuel a b : ℕ, b < fuel → gcdF fuel a b = Nat.gcd a b := by
  intro fuel
  induction fuel with
  | zero => intro a b h; omega
  | succ fuel ih =>
    intro a b h
    unfold gcdF
    by_cases hb : b = 0
    · simp [hb]
    · rw [if_neg hb]
      have hbpos : 0 < b := Nat.pos_of_ne_zero hb
      have hlt : a % b < b := Nat.mod_lt _ hbpos
      rw [ih b (a % b) (by omega)]
      rw [Nat.gcd_comm b (a % b), ← Nat.gcd_rec b a, Nat.gcd_comm b a]

theorem gcd_eq_natGcd (a b : ℕ) : gcd a b = Nat.gcd a b :=
  gcdF_eq (b + 1) a b (Nat.lt_succ_self b)

theorem step_of_finished {v : F64} {s : LState} (h : s.finished = true) : step v s = s := by
  simp [step, h]

theorem runLoop_of_finished {v : F64} {s : LState} (h : s.finished = true) :
    ∀ k, runLoop v k s = s := by
  intro k
  induction k with
  | zero => rfl
  | succ k ih =>
    show runLoop v k (step v s) = s
    rw [step_of_finished h, ih]

theorem itersUsedAux_le (v : F64) : ∀ k s, itersUsedAux v k s ≤ k := by
  intro k
  induction k with
  | zero => intro s; exact Nat.le_refl 0
  | succ k ih =>
    intro s
    unfold itersUsedAux
    by_cases h : s.finished = true
    · simp [h]
    · rw [if_neg h]
      exact Nat.succ_le_succ (ih (step v s))

theorem pow2_eq_zpow (s : ℤ) : pow2 s = (2 : ℚ) ^ s := by
  cases s with
  | ofNat k =>
    show ((2 ^ k : ℕ) : ℚ) = (2 : ℚ) ^ (Int.ofNat k)
    have h : (Int.ofNat k) = (k : ℤ) := rfl
    rw [h, zpow_natCast]
    push_cast
    ring
  | negSucc k =>
    show Rat.divInt 1 ((2 : ℤ) ^ (k + 1)) = (2 : ℚ) ^ (Int.negSucc k)
    rw [zpow_negSucc, Rat.divInt_eq_div]
    push_cast
    rw [one_div]

theorem pow2_pos (s : ℤ) : 0 < pow2 s := by
  rw [pow2_eq_zpow]; exact zpow_pos (by norm_num) s

theorem pow2_add (a b : ℤ) : pow2 (a + b) = pow2 a * pow2 b := by
  rw [pow2_eq_zpow, pow2_eq_zpow, pow2_eq_zpow]
  exact zpow_add₀ (by norm_num) a b

theorem pow2_le_pow2 {a b : ℤ} (h : a ≤ b) : pow2 a ≤ pow2 b := by
  rw [pow2_eq_zpow, pow2_eq_zpow]
  exact zpow_le_zpow_right₀ (by norm_num) h

theorem pow2_le_pow2_iff {a b : ℤ} : pow2 a ≤ pow2 b ↔ a ≤ b := by
  rw [pow2_eq_zpow, pow2_eq_zpow]
  exact zpow_le_zpow_iff_right₀ (by norm_num)

theorem pow2_zero : pow2 0 = 1 := by
  show ((2 ^ 0 : ℕ) : ℚ) = 1
  norm_num

theorem pow2_neg (s : ℤ) : pow2 (-s) = (pow2 s)⁻¹ := by
  rw [pow2_eq_zpow, pow2_eq_zpow, zpow_neg]

theorem pow2_toNat {c : ℤ} (h : 0 ≤ c) : (((2 : ℤ) ^ c.toNat : ℤ) : ℚ) = pow2 c := by
  rw [pow2_eq_zpow]
  push_cast
  rw [← zpow_natCast, Int.toNat_of_nonneg h]

theorem log2F_spec : ∀ fuel n : ℕ, 1 ≤ n → n < 2 ^ fuel →
    2 ^ log2F fuel n ≤ n ∧ n < 2 ^ (log2F fuel n + 1) := by
  intro fuel
  induction fuel with
  | zero => intro n h1 h2; simp at h2; omega
  | succ fuel ih =>
    intro n h1 h2
    unfold log2F
    by_cases h : n < 2
    · simp only [h, if_true]
      constructor
      · simpa using h1
      · simpa using h
    · rw [if_neg h]
      have hn2 : 1 ≤ n / 2 := by omega
      have hlt : n / 2 < 2 ^ fuel := by
        have hp : 2 ^ (fuel + 1) = 2 * 2 ^ fuel := by ring
        rw [hp] at h2
        omega
      obtain ⟨ha, hb⟩ := ih (n / 2) hn2 hlt
      have hA : 2 ^ (log2F fuel (n / 2) + 1) = 2 * 2 ^ log2F fuel (n / 2) := by ring
      have hB : 2 ^ (log2F fuel (n / 2) + 1 + 1) = 2 * 2 ^ (log2F fuel (n / 2) + 1) := by ring
      constructor
      · rw [hA]; omega
      · rw [hB]; omega

theorem natLog2_spec {n : ℕ} (h : 1 ≤ n) : 2 ^ natLog2 n ≤ n ∧ n < 2 ^ (natLog2 n + 1) :=
  log2F_spec n n h (Nat.lt_two_pow n)

theorem rne_ge_floor (m : ℚ) : ⌊m⌋ ≤ rne m := by
  unfold rne
  split_ifs <;> omega

theorem rne_le_ceil (m : ℚ) : rne m ≤ ⌈m⌉ := by
  have hfc : ⌊m⌋ ≤ ⌈m⌉ := Int.floor_le_ceil m
  unfold rne
  split_ifs with h1 h2 h3
  · exact hfc
  · have hx : (⌊m⌋ : ℚ) < m := by
      have h05 : (0 : ℚ) < 1 / 2 := by norm_num
      linarith
    have := Int.lt_ceil.mpr hx
    omega
  · exact hfc
  · have hx : (⌊m⌋ : ℚ) < m := by
      push_neg at h1
      have h05 : (0 : ℚ) < 1 / 2 := by norm_num
      linarith
    have := Int.lt_ceil.mpr hx
    omega

theorem rne_le_of_le {m : ℚ} {c : ℤ} (h : m ≤ (c : ℚ)) : rne m ≤ c := by
  have h1 := rne_le_ceil m
  have h2 : ⌈m⌉ ≤ c := Int.ceil_le.mpr h
  omega

theorem le_rne_of_le {m : ℚ} {c : ℤ} (h : (c : ℚ) ≤ m) : c ≤ rne m := by
  have h1 := rne_ge_floor m
  have h2 : c ≤ ⌊m⌋ := Int.le_floor.mpr h
  omega

theorem ratExp_spec {x : ℚ} (hx : 0 < x) :
    pow2 (ratExp x) ≤ x ∧ x < pow2 (ratExp x + 1) := by
  have hnum : 0 < x.num := Rat.num_pos.mpr hx
  have hnn : 1 ≤ x.num.natAbs := by omega
  have hdd : 1 ≤ x.den := x.pos
  obtain ⟨ha1, ha2⟩ := natLog2_spec hnn
  obtain ⟨hb1, hb2⟩ := natLog2_spec hdd
  set α := natLog2 x.num.natAbs with hα
  set β := natLog2 x.den with hβ
  have hxeq : x = (x.num.natAbs : ℚ) / (x.den : ℚ) := by
    have h1 : ((x.num.natAbs : ℤ)) = x.num := Int.natAbs_of_nonneg hnum.le
    calc x = (x.num : ℚ) / (x.den : ℚ) := (Rat.num_div_den x).symm
      _ = ((x.num.natAbs : ℤ) : ℚ) / (x.den : ℚ) := by rw [h1]
      _ = (x.num.natAbs : ℚ) / (x.den : ℚ) := by rw [Int.cast_natCast]
  have hden_pos : (0 : ℚ) < (x.den : ℚ) := by exact_mod_cast hdd
  -- upper bound: x < 2 ^ (α - β + 1)
  have hup : x < pow2 ((α : ℤ) - (β : ℤ) + 1) := by
    have hkey : ((x.num.natAbs : ℚ)) * ((2 ^ β : ℕ) : ℚ) <
        ((2 ^ (α + 1) : ℕ) : ℚ) * (x.den : ℚ) := by
      have c1 : ((x.num.natAbs : ℚ)) < ((2 ^ (α + 1) : ℕ) : ℚ) := by exact_mod_cast ha2
      have c2 : ((2 ^ β : ℕ) : ℚ) ≤ (x.den : ℚ) := by exact_mod_cast hb1
      have c3 : (0 : ℚ) < ((2 ^ β : ℕ) : ℚ) := by positivity
      have c4 : (0 : ℚ) < ((2 ^ (α + 1) : ℕ) : ℚ) := by positivity
      calc (x.num.natAbs : ℚ) * ((2 ^ β : ℕ) : ℚ)
          < ((2 ^ (α + 1) : ℕ) : ℚ) * ((2 ^ β : ℕ) : ℚ) := by
            exact mul_lt_mul_of_pos_right c1 c3
        _ ≤ ((2 ^ (α + 1) : ℕ) : ℚ) * (x.den : ℚ) := by
            exact mul_le_mul_of_nonneg_left c2 c4.le
    rw [hxeq]
    have hp2 : pow2 ((α : ℤ) - (β : ℤ) + 1) =
        ((2 ^ (α + 1) : ℕ) : ℚ) / ((2 ^ β : ℕ) : ℚ) := by
      rw [pow2_eq_zpow]
      have e1 : ((2 ^ (α + 1) : ℕ) : ℚ) = (2 : ℚ) ^ ((α : ℤ) + 1) := by
        push_cast
        rw [← zpow_natCast]
        push_cast
        ring_nf
      have e2 : ((2 ^ β : ℕ) : ℚ) = (2 : ℚ) ^ (β : ℤ) := by
        push_cast
        rw [← zpow_natCast]
      rw [e1, e2, ← zpow_sub₀ (by norm_num : (2:ℚ) ≠ 0)]
      congr 1
      ring
    rw [hp2, div_lt_div_iff₀ hden_pos (by positivity)]
    exact hkey
  -- lower bound: 2 ^ (α - β - 1) < x
  have hlo : pow2 ((α : ℤ) - (β : ℤ) - 1) < x := by
    have hkey : ((2 ^ α : ℕ) : ℚ) * (x.den : ℚ) <
        ((x.num.natAbs : ℚ)) * ((2 ^ (β + 1) : ℕ) : ℚ) := by
      have c1 : ((2 ^ α : ℕ) : ℚ) ≤ ((x.num.natAbs : ℚ)) := by exact_mod_cast ha1
      have c2 : (x.den : ℚ) < ((2 ^ (β + 1) : ℕ) : ℚ) := by exact_mod_cast hb2
      have c3 : (0 : ℚ) < ((2 ^ α : ℕ) : ℚ) := by positivity
      have c5 : (0 : ℚ) < (x.num.natAbs : ℚ) := by exact_mod_cast hnn
      calc ((2 ^ α : ℕ) : ℚ) * (x.den : ℚ)
          < ((2 ^ α : ℕ) : ℚ) * ((2 ^ (β + 1) : ℕ) : ℚ) := by
            exact mul_lt_mul_of_pos_left c2 c3
        _ ≤ ((x.num.natAbs : ℚ)) * ((2 ^ (β + 1) : ℕ) : ℚ) := by
            exact mul_le_mul_of_nonneg_right c1 (by positivity)
    have hp2 : pow2 ((α : ℤ) - (β : ℤ) - 1) =
        ((2 ^ α : ℕ) : ℚ) / ((2 ^ (β + 1) : ℕ) : ℚ) := by
      rw [pow2_eq_zpow]
      have e1 : ((2 ^ α : ℕ) : ℚ) = (2 : ℚ) ^ ((α : ℤ)) := by
        push_cast
        rw [← zpow_natCast]
      have e2 : ((2 ^ (β + 1) : ℕ) : ℚ) = (2 : ℚ) ^ ((β : ℤ) + 1) := by
        push_cast
        rw [← zpow_natCast]
        push_cast
        ring_nf
      rw [e1, e2, ← zpow_sub₀ (by norm_num : (2:ℚ) ≠ 0)]
      congr 1
      ring
    rw [hxeq, hp2, div_lt_div_iff₀ (by positivity) hden_pos]
    exact hkey
  unfold ratExp
  by_cases hcase : x < pow2 ((natLog2 x.num.natAbs : ℤ) - (natLog2 x.den : ℤ))
  · rw [if_pos hcase]
    constructor
    · have := hlo
      have harith : (α : ℤ) - (β : ℤ) - 1 =
          ((natLog2 x.num.natAbs : ℤ) - (natLog2 x.den : ℤ)) - 1 := by rw [hα, hβ]
      rw [harith] at this
      exact this.le
    · have harith : ((natLog2 x.num.natAbs : ℤ) - (natLog2 x.den : ℤ)) - 1 + 1 =
          (natLog2 x.num.natAbs : ℤ) - (natLog2 x.den : ℤ) := by ring
      rw [harith]
      exact hcase
  · rw [if_neg hcase]
    constructor
    · exact not_lt.mp hcase
    · have harith : (α : ℤ) - (β : ℤ) + 1 =
          ((natLog2 x.num.natAbs : ℤ) - (natLog2 x.den : ℤ)) + 1 := by rw [hα, hβ]
      rw [harith] at hup
      exact hup

theorem roundF64_eq_fin {y : ℚ} (hne : y ≠ 0)
    (h : ¬ pow2 1024 ≤ |(rne (y / pow2 (max (ratExp |y| - 52) (-1074))) : ℚ) *
      pow2 (max (ratExp |y| - 52) (-1074))|) :
    roundF64 y = .fin ((rne (y / pow2 (max (ratExp |y| - 52) (-1074))) : ℚ) *
      pow2 (max (ratExp |y| - 52) (-1074))) := by
  unfold roundF64
  rw [if_neg hne]
  dsimp only
  rw [if_neg h]

theorem roundF64_le_one {y : ℚ} (h0 : 0 ≤ y) (h1 : y ≤ 1) :
    ∃ z : ℚ, roundF64 y = .fin z ∧ 0 ≤ z ∧ z ≤ 1 := by
  rcases eq_or_lt_of_le h0 with h | h
  · refine ⟨0, ?_, le_refl 0, by norm_num⟩
    unfold roundF64
    rw [if_pos h.symm]
  · have hne : y ≠ 0 := ne_of_gt h
    have habs : |y| = y := abs_of_pos h
    set e : ℤ := ratExp |y| with hedef
    have he1 : pow2 e ≤ y := by rw [hedef, habs]; exact (ratExp_spec h).1
    have he_le : e ≤ 0 := by
      have hle : pow2 e ≤ pow2 0 := by rw [pow2_zero]; exact le_trans he1 h1
      exact pow2_le_pow2_iff.mp hle
    set s : ℤ := max (e - 52) (-1074) with hsdef
    have hs_le : s ≤ 0 := max_le (by omega) (by norm_num)
    have hp : 0 < pow2 s := pow2_pos s
    set m : ℚ := y / pow2 s with hmdef
    have hm0 : 0 ≤ m := div_nonneg h0 hp.le
    have hrne0 : (0 : ℤ) ≤ rne m := le_rne_of_le (by exact_mod_cast hm0)
    set r : ℚ := (rne m : ℚ) * pow2 s with hrdef
    have hr0 : 0 ≤ r := mul_nonneg (by exact_mod_cast hrne0) hp.le
    have hc : (((2 : ℤ) ^ (-s).toNat : ℤ) : ℚ) = pow2 (-s) := pow2_toNat (by omega)
    have hm_le : m ≤ (((2 : ℤ) ^ (-s).toNat : ℤ) : ℚ) := by
      rw [hc, hmdef, pow2_neg, div_le_iff₀ hp, inv_mul_cancel₀ (ne_of_gt hp)]
      exact h1
    have hrne_le : rne m ≤ (2 : ℤ) ^ (-s).toNat := rne_le_of_le hm_le
    have hr_le : r ≤ 1 := by
      have hcast : (rne m : ℚ) ≤ (((2 : ℤ) ^ (-s).toNat : ℤ) : ℚ) := by exact_mod_cast hrne_le
      calc r = (rne m : ℚ) * pow2 s := hrdef
        _ ≤ (((2 : ℤ) ^ (-s).toNat : ℤ) : ℚ) * pow2 s := by
            exact mul_le_mul_of_nonneg_right hcast hp.le
        _ = pow2 (-s) * pow2 s := by rw [hc]
        _ = 1 := by rw [← pow2_add, neg_add_cancel, pow2_zero]
    have hov : ¬ pow2 1024 ≤ |r| := by
      rw [abs_of_nonneg hr0]
      intro hcon
      have h1024 : pow2 0 < pow2 1024 := by
        have := pow2_le_pow2_iff.mpr (by norm_num : (0 : ℤ) ≤ 1023)
        have h2 : pow2 1023 < pow2 1024 := by
          have hh := pow2_le_pow2_iff.mpr (by norm_num : (1023 : ℤ) ≤ 1024)
          rcases lt_or_eq_of_le hh with hlt | heq
          · exact hlt
          · exfalso
            have := pow2_le_pow2_iff.mp (le_of_eq heq.symm)
            omega
        calc pow2 0 ≤ pow2 1023 := this
          _ < pow2 1024 := h2
      rw [pow2_zero] at h1024
      linarith
    exact ⟨r, roundF64_eq_fin hne hov, hr0, hr_le⟩

theorem roundF64_ge_one {y : ℚ} (h1 : 1 ≤ y) (h2 : y ≤ pow2 40) :
    ∃ z : ℚ, roundF64 y = .fin z ∧ 1 ≤ z := by
  have h : 0 < y := lt_of_lt_of_le one_pos h1
  have hne : y ≠ 0 := ne_of_gt h
  have habs : |y| = y := abs_of_pos h
  set e : ℤ := ratExp |y| with hedef
  have he1 : pow2 e ≤ y := by rw [hedef, habs]; exact (ratExp_spec h).1
  have he_le : e ≤ 40 := pow2_le_pow2_iff.mp (le_trans he1 h2)
  set s : ℤ := max (e - 52) (-1074) with hsdef
  have hs_le : s ≤ 0 := max_le (by omega) (by norm_num)
  have hp : 0 < pow2 s := pow2_pos s
  set m : ℚ := y / pow2 s with hmdef
  have hc : (((2 : ℤ) ^ (-s).toNat : ℤ) : ℚ) = pow2 (-s) := pow2_toNat (by omega)
  have hm_ge : (((2 : ℤ) ^ (-s).toNat : ℤ) : ℚ) ≤ m := by
    rw [hc, hmdef, pow2_neg, le_div_iff₀ hp, inv_mul_cancel₀ (ne_of_gt hp)]
    exact h1
  have hrne_ge : (2 : ℤ) ^ (-s).toNat ≤ rne m := le_rne_of_le hm_ge
  set r : ℚ := (rne m : ℚ) * pow2 s with hrdef
  have hr_ge : 1 ≤ r := by
    have hcast : (((2 : ℤ) ^ (-s).toNat : ℤ) : ℚ) ≤ (rne m : ℚ) := by exact_mod_cast hrne_ge
    calc (1 : ℚ) = pow2 (-s) * pow2 s := by rw [← pow2_add, neg_add_cancel, pow2_zero]
      _ = (((2 : ℤ) ^ (-s).toNat : ℤ) : ℚ) * pow2 s := by rw [hc]
      _ ≤ (rne m : ℚ) * pow2 s := by exact mul_le_mul_of_nonneg_right hcast hp.le
      _ = r := hrdef.symm
  have hcu : (((2 : ℤ) ^ (40 - s).toNat : ℤ) : ℚ) = pow2 (40 - s) := pow2_toNat (by omega)
  have hm_le : m ≤ (((2 : ℤ) ^ (40 - s).toNat : ℤ) : ℚ) := by
    rw [hcu, hmdef, div_le_iff₀ hp]
    calc y ≤ pow2 40 := h2
      _ = pow2 (40 - s) * pow2 s := by rw [← pow2_add]; ring_nf
  have hrne_le : rne m ≤ (2 : ℤ) ^ (40 - s).toNat := rne_le_of_le hm_le
  have hr_le : r ≤ pow2 40 := by
    have hcast : (rne m : ℚ) ≤ (((2 : ℤ) ^ (40 - s).toNat : ℤ) : ℚ) := by exact_mod_cast hrne_le
    calc r = (rne m : ℚ) * pow2 s := hrdef
      _ ≤ (((2 : ℤ) ^ (40 - s).toNat : ℤ) : ℚ) * pow2 s := by
          exact mul_le_mul_of_nonneg_right hcast hp.le
      _ = pow2 (40 - s) * pow2 s := by rw [hcu]
      _ = pow2 40 := by rw [← pow2_add]; ring_nf
  have hov : ¬ pow2 1024 ≤ |r| := by
    rw [abs_of_nonneg (le_trans zero_le_one hr_ge)]
    intro hcon
    have hlt : pow2 40 < pow2 1024 := by
      have hh := pow2_le_pow2_iff.mpr (by norm_num : (40 : ℤ) ≤ 1024)
      rcases lt_or_eq_of_le hh with hlt | heq
      · exact hlt
      · exfalso
        have := pow2_le_pow2_iff.mp (le_of_eq heq.symm)
        omega
    linarith
  exact ⟨r, roundF64_eq_fin hne hov, hr_ge⟩

theorem castU32_fin_ge_one {w : ℚ} (h : 1 ≤ w) : 1 ≤ castU32 (.fin w) := by
  simp only [castU32]
  split_ifs with h1 h2
  · linarith
  · norm_num
  · have hfl : (1 : ℤ) ≤ ⌊w⌋ := Int.le_floor.mpr (by exact_mod_cast h)
    omega

theorem castU32_fin_eq {q : ℚ} (h0 : 0 ≤ q) (h1 : q ≤ 4294967295) :
    castU32 (.fin q) = (⌊q⌋).toNat := by
  simp only [castU32]
  rw [if_neg (by linarith), if_neg (by linarith)]

theorem castU32_le {q : ℚ} (h0 : 0 ≤ q) (h1 : q ≤ 2147483647) :
    castU32 (.fin q) ≤ 2147483647 := by
  rw [castU32_fin_eq h0 (by linarith)]
  have hfl : ⌊q⌋ ≤ (2147483647 : ℤ) := by
    have := Int.floor_le q
    have hcast : (⌊q⌋ : ℚ) ≤ 2147483647 := le_trans this h1
    exact_mod_cast hcast
  omega

theorem bool_false_of_not {b : Bool} (h : ¬ b = true) : b = false := by
  cases hb : b
  · rfl
  · exact absurd hb h

theorem step_bounds (v : F64) (s : LState)
    (h : s.n0 ≤ i32MAX ∧ s.d0 ≤ i32MAX ∧ s.n1 ≤ i32MAX ∧ s.d1 ≤ i32MAX) :
    (step v s).n0 ≤ i32MAX ∧ (step v s).d0 ≤ i32MAX ∧
    (step v s).n1 ≤ i32MAX ∧ (step v s).d1 ≤ i32MAX := by
  obtain ⟨h0, h1, h2, h3⟩ := h
  by_cases hfin : s.finished = true
  · rw [step_of_finished hfin]; exact ⟨h0, h1, h2, h3⟩
  · have hfin' : s.finished = false := bool_false_of_not hfin
    simp only [step, hfin', Bool.false_eq_true, if_false]
    set a := castU32 s.q with hadef
    by_cases hguard : a ≠ 0 ∧ (s.n1 > i32MAX / a ∨ s.d1 > i32MAX / a ∨
        a * s.n1 > i32MAX - s.n0 ∨ a * s.d1 > i32MAX - s.d0)
    · rw [if_pos hguard]
      exact ⟨h0, h1, h2, h3⟩
    · rw [if_neg hguard]
      have hn : a * s.n1 + s.n0 ≤ i32MAX ∧ a * s.d1 + s.d0 ≤ i32MAX := by
        rcases Nat.eq_zero_or_pos a with haz | hapos
        · rw [haz]
          simp only [Nat.zero_mul, Nat.zero_add]
          exact ⟨h0, h1⟩
        · push_neg at hguard
          obtain ⟨hA, hB, hC, hD⟩ := hguard (by omega)
          constructor
          · generalize hP : a * s.n1 = P at hC ⊢
            omega
          · generalize hP : a * s.d1 = P at hD ⊢
            omega
      split_ifs with heps herr hg hg
      · exact ⟨h2, h3, hn.1, hn.2⟩
      · exact ⟨h2, h3, le_trans (Nat.div_le_self _ _) hn.1,
          le_trans (Nat.div_le_self _ _) hn.2⟩
      · exact ⟨h2, h3, hn.1, hn.2⟩
      · exact ⟨h2, h3, le_trans (Nat.div_le_self _ _) hn.1,
          le_trans (Nat.div_le_self _ _) hn.2⟩
      · exact ⟨h2, h3, hn.1, hn.2⟩

theorem runLoop_bounds (v : F64) : ∀ (k : ℕ) (s : LState),
    (s.n0 ≤ i32MAX ∧ s.d0 ≤ i32MAX ∧ s.n1 ≤ i32MAX ∧ s.d1 ≤ i32MAX) →
    ((runLoop v k s).n0 ≤ i32MAX ∧ (runLoop v k s).d0 ≤ i32MAX ∧
      (runLoop v k s).n1 ≤ i32MAX ∧ (runLoop v k s).d1 ≤ i32MAX) := by
  intro k
  induction k with
  | zero => intro s h; exact h
  | succ k ih =>
    intro s h
    exact ih (step v s) (step_bounds v s h)

theorem step_invD (v : F64) (s : LState)
    (h1 : 1 ≤ s.d1) (h2 : s.finished = true ∨ 1 ≤ s.d0) :
    1 ≤ (step v s).d1 ∧ ((step v s).finished = true ∨ 1 ≤ (step v s).d0) := by
  by_cases hfin : s.finished = true
  · rw [step_of_finished hfin]; exact ⟨h1, Or.inl hfin⟩
  · have hfin' : s.finished = false := bool_false_of_not hfin
    have hd0 : 1 ≤ s.d0 := by
      rcases h2 with h | h
      · exact absurd h hfin
      · exact h
    simp only [step, hfin', Bool.false_eq_true, if_false]
    set a := castU32 s.q with hadef
    by_cases hguard : a ≠ 0 ∧ (s.n1 > i32MAX / a ∨ s.d1 > i32MAX / a ∨
        a * s.n1 > i32MAX - s.n0 ∨ a * s.d1 > i32MAX - s.d0)
    · rw [if_pos hguard]
      exact ⟨h1, Or.inl rfl⟩
    · rw [if_neg hguard]
      have hd_ge : 1 ≤ a * s.d1 + s.d0 := le_trans hd0 (Nat.le_add_left _ _)
      have hdiv_ge : gcd (a * s.n1 + s.n0) (a * s.d1 + s.d0) ≠ 0 →
          1 ≤ (a * s.d1 + s.d0) / gcd (a * s.n1 + s.n0) (a * s.d1 + s.d0) := by
        intro hg
        have hgd : gcd (a * s.n1 + s.n0) (a * s.d1 + s.d0) ∣ (a * s.d1 + s.d0) := by
          rw [gcd_eq_natGcd]; exact Nat.gcd_dvd_right _ _
        rw [Nat.one_le_div_iff (Nat.pos_of_ne_zero hg)]
        exact Nat.le_of_dvd (by omega) hgd
      split_ifs with heps herr hg hg
      · exact ⟨hd_ge, Or.inl rfl⟩
      · exact ⟨hdiv_ge hg, Or.inl rfl⟩
      · exact ⟨hd_ge, Or.inl rfl⟩
      · exact ⟨hdiv_ge hg, Or.inr h1⟩
      · exact ⟨hd_ge, Or.inr h1⟩

theorem runLoop_invD (v : F64) : ∀ (k : ℕ) (s : LState),
    (1 ≤ s.d1 ∧ (s.finished = true ∨ 1 ≤ s.d0)) →
    (1 ≤ (runLoop v k s).d1 ∧
      ((runLoop v k s).finished = true ∨ 1 ≤ (runLoop v k s).d0)) := by
  intro k
  induction k with
  | zero => intro s h; exact h
  | succ k ih =>
    intro s h
    exact ih (step v s) (step_invD v s h.1 h.2)

set_option maxRecDepth 40000 in
theorem EPSILON_eq :
    EPSILON = .fin (7737125245533627 / 77371252455336267181195264) := by decide

theorem step_init {x : ℚ} (hx : |x| ≤ 2147483647) :
    (step (.fin x) (initState (fabs (.fin x)))).d1 = 1 ∧
    ((step (.fin x) (initState (fabs (.fin x)))).finished = true ∨
      ∃ w : ℚ, (step (.fin x) (initState (fabs (.fin x)))).q = .fin w ∧ 1 ≤ w) := by
  have habs : fabs (F64.fin x) = .fin |x| := rfl
  rw [habs]
  simp only [step, initState, Bool.false_eq_true, if_false,
    Nat.mul_one, Nat.mul_zero, Nat.add_zero, Nat.zero_add]
  set a := castU32 (F64.fin |x|) with hadef
  have ha_le : a ≤ 2147483647 := castU32_le (abs_nonneg x) hx
  have hM : i32MAX = 2147483647 := rfl
  by_cases hguard : a ≠ 0 ∧ (1 > i32MAX / a ∨ 0 > i32MAX / a ∨
      a > i32MAX - 0 ∨ 0 > i32MAX - 1)
  · exfalso
    obtain ⟨hne, hdisj⟩ := hguard
    have hapos : 0 < a := Nat.pos_of_ne_zero hne
    have hdiv : 1 ≤ i32MAX / a := (Nat.one_le_div_iff hapos).mpr (by omega)
    rcases hdisj with h | h | h | h <;> omega
  · rw [if_neg hguard]
    have hg1 : gcd a 1 = 1 := by rw [gcd_eq_natGcd]; exact Nat.gcd_one_right a
    simp only [hg1, ne_eq, one_ne_zero, not_false_eq_true, if_true, Nat.div_one]
    by_cases heps : flt (fsub (F64.fin |x|) (F64.fin ((a : ℕ) : ℚ))) EPSILON = true
    · rw [if_pos heps]
      exact ⟨rfl, Or.inl rfl⟩
    · rw [if_neg heps]
      -- analyse f = roundF64 (|x| - a)
      have hfl0 : (0 : ℤ) ≤ ⌊|x|⌋ := Int.floor_nonneg.mpr (abs_nonneg x)
      have haq : ((a : ℕ) : ℚ) = ((⌊|x|⌋ : ℤ) : ℚ) := by
        rw [hadef, castU32_fin_eq (abs_nonneg x) (by linarith)]
        exact_mod_cast congrArg (fun z : ℤ => (z : ℚ)) (Int.toNat_of_nonneg hfl0)
      have hy0 : 0 ≤ |x| - ((a : ℕ) : ℚ) := by
        rw [haq]
        have := Int.floor_le |x|
        linarith
      have hy1 : |x| - ((a : ℕ) : ℚ) ≤ 1 := by
        rw [haq]
        have := Int.lt_floor_add_one |x|
        push_cast at this ⊢
        linarith
      obtain ⟨z, hz, hz0, hz1⟩ := roundF64_le_one hy0 hy1
      have hfsub : fsub (F64.fin |x|) (F64.fin ((a : ℕ) : ℚ)) =
          roundF64 (|x| - ((a : ℕ) : ℚ)) := rfl
      have hfz : fsub (F64.fin |x|) (F64.fin ((a : ℕ) : ℚ)) = .fin z := by
        rw [hfsub, hz]
      rw [hfz] at heps
      rw [EPSILON_eq] at heps
      have hflt : flt (F64.fin z) (F64.fin (7737125245533627 / 77371252455336267181195264)) =
          decide (z < 7737125245533627 / 77371252455336267181195264) := rfl
      rw [hflt] at heps
      have hze : (7737125245533627 / 77371252455336267181195264 : ℚ) ≤ z := by
        have hnot := of_decide_eq_false (bool_false_of_not heps)
        exact le_of_not_lt hnot
      have hz_pos : 0 < z := lt_of_lt_of_le (by norm_num) hze
      have hdiv_eq : fdiv (F64.fin 1) (F64.fin z) = roundF64 (1 / z) := by
        simp only [fdiv]
        rw [if_neg (ne_of_gt hz_pos)]
      have h1z : 1 ≤ 1 / z := one_le_one_div hz_pos hz1
      have h2z : 1 / z ≤ pow2 40 := by
        have hstep : 1 / z ≤ 1 / (7737125245533627 / 77371252455336267181195264 : ℚ) :=
          one_div_le_one_div_of_le (by norm_num) hze
        have hval : (1 / (7737125245533627 / 77371252455336267181195264 : ℚ)) ≤ pow2 40 := by
          rw [show pow2 40 = ((2 ^ 40 : ℕ) : ℚ) from rfl]
          norm_num
        linarith
      obtain ⟨w, hw, h1w⟩ := roundF64_ge_one h1z h2z
      by_cases herr : flt (fabs (fsub (fdiv (F64.fin ((a : ℕ) : ℚ)) (F64.fin ((1 : ℕ) : ℚ)))
          (F64.fin x))) MAX_ERROR = true
      · rw [if_pos herr]
        exact ⟨rfl, Or.inl rfl⟩
      · rw [if_neg herr]
        refine ⟨rfl, Or.inr ⟨w, ?_, h1w⟩⟩
        show fdiv (F64.fin 1) (fsub (F64.fin |x|) (F64.fin ((a : ℕ) : ℚ))) = F64.fin w
        rw [hfz, hdiv_eq, hw]

theorem loopFinal_d1_pos {x : ℚ} (hx : |x| ≤ 2147483647) :
    1 ≤ (loopFinal (F64.fin x)).d1 := by
  obtain ⟨hd1, hcase⟩ := step_init hx
  show 1 ≤ (runLoop (F64.fin x) 30 (initState (fabs (F64.fin x)))).d1
  have hstep : runLoop (F64.fin x) 30 (initState (fabs (F64.fin x))) =
      runLoop (F64.fin x) 29 (step (F64.fin x) (initState (fabs (F64.fin x)))) := rfl
  rw [hstep]
  set s1 := step (F64.fin x) (initState (fabs (F64.fin x))) with hs1
  by_cases hfin1 : s1.finished = true
  · rw [runLoop_of_finished hfin1]
    omega
  · rcases hcase with hfin | hq
    · exact absurd hfin hfin1
    · have hnext : runLoop (F64.fin x) 29 s1 = runLoop (F64.fin x) 28 (step (F64.fin x) s1) :=
        rfl
      rw [hnext]
      -- second iteration: the cast of q is at least one, so the new d1 stays positive
      obtain ⟨w, hwq, h1w⟩ := hq
      have h2 : 1 ≤ (step (F64.fin x) s1).d1 ∧
          ((step (F64.fin x) s1).finished = true ∨ 1 ≤ (step (F64.fin x) s1).d0) := by
        have hfin1' : s1.finished = false := bool_false_of_not hfin1
        simp only [step, hfin1', Bool.false_eq_true, if_false]
        set a := castU32 s1.q with hadef
        have ha1 : 1 ≤ a := by
          rw [hadef, hwq]
          exact castU32_fin_ge_one h1w
        by_cases hguard : a ≠ 0 ∧ (s1.n1 > i32MAX / a ∨ s1.d1 > i32MAX / a ∨
            a * s1.n1 > i32MAX - s1.n0 ∨ a * s1.d1 > i32MAX - s1.d0)
        · rw [if_pos hguard]
          exact ⟨hd1.ge, Or.inl rfl⟩
        · rw [if_neg hguard]
          have hd_ge : 1 ≤ a * s1.d1 + s1.d0 := by
            have : 1 * 1 ≤ a * s1.d1 := Nat.mul_le_mul ha1 (by omega)
            omega
          have hdiv_ge : gcd (a * s1.n1 + s1.n0) (a * s1.d1 + s1.d0) ≠ 0 →
              1 ≤ (a * s1.d1 + s1.d0) / gcd (a * s1.n1 + s1.n0) (a * s1.d1 + s1.d0) := by
            intro hg
            have hgd : gcd (a * s1.n1 + s1.n0) (a * s1.d1 + s1.d0) ∣ (a * s1.d1 + s1.d0) := by
              rw [gcd_eq_natGcd]; exact Nat.gcd_dvd_right _ _
            rw [Nat.one_le_div_iff (Nat.pos_of_ne_zero hg)]
            exact Nat.le_of_dvd (by omega) hgd
          split_ifs with heps herr hg hg
          · exact ⟨hd_ge, Or.inl rfl⟩
          · exact ⟨hdiv_ge hg, Or.inl rfl⟩
          · exact ⟨hd_ge, Or.inl rfl⟩
          · exact ⟨hdiv_ge hg, Or.inr hd1.ge⟩
          · exact ⟨hd_ge, Or.inr hd1.ge⟩
      exact (runLoop_invD (F64.fin x) 28 (step (F64.fin x) s1) h2).1

theorem mkRational32_eq {n d : ℤ} (hd : 0 < d) :
    mkRational32 n d = (n / ((Int.gcd n d : ℕ) : ℤ), d / ((Int.gcd n d : ℕ) : ℤ)) := by
  unfold mkRational32
  rw [if_neg (by omega)]

theorem mkRational32_den_pos {n d : ℤ} (hd : 0 < d) : 0 < (mkRational32 n d).2 := by
  rw [mkRational32_eq hd]
  show 0 < d / ((Int.gcd n d : ℕ) : ℤ)
  have hg : 0 < Int.gcd n d := Int.gcd_pos_iff.mpr (Or.inr (by omega))
  set g : ℤ := ((Int.gcd n d : ℕ) : ℤ) with hgdef
  have hgne : g ≠ 0 := by rw [hgdef]; exact_mod_cast hg.ne'
  have hgpos : (0 : ℤ) < g := by rw [hgdef]; exact_mod_cast hg
  obtain ⟨c, hc⟩ := (Int.gcd_dvd_right : g ∣ d)
  rw [hc, Int.mul_ediv_cancel_left c hgne]
  by_contra hle
  push_neg at hle
  nlinarith

theorem mkRational32_num_nonneg {n d : ℤ} (hd : 0 < d) (hn : 0 ≤ n) :
    0 ≤ (mkRational32 n d).1 := by
  rw [mkRational32_eq hd]
  show 0 ≤ n / ((Int.gcd n d : ℕ) : ℤ)
  exact Int.ediv_nonneg hn (by positivity)

theorem mkRational32_num_nonpos {n d : ℤ} (hd : 0 < d) (hn : n ≤ 0) :
    (mkRational32 n d).1 ≤ 0 := by
  rw [mkRational32_eq hd]
  show n / ((Int.gcd n d : ℕ) : ℤ) ≤ 0
  have hdvd : ((Int.gcd n d : ℕ) : ℤ) ∣ (-n) := Dvd.dvd.neg_right Int.gcd_dvd_left
  have hrw : n / ((Int.gcd n d : ℕ) : ℤ) = -((-n) / ((Int.gcd n d : ℕ) : ℤ)) := by
    rw [← Int.neg_ediv_of_dvd hdvd, neg_neg]
  rw [hrw]
  have : 0 ≤ (-n) / ((Int.gcd n d : ℕ) : ℤ) := Int.ediv_nonneg (by omega) (by positivity)
  omega

theorem mkRational32_coprime {n d : ℤ} (hd : 0 < d) :
    Int.gcd (mkRational32 n d).1 (mkRational32 n d).2 = 1 := by
  rw [mkRational32_eq hd]
  show Int.gcd (n / ((Int.gcd n d : ℕ) : ℤ)) (d / ((Int.gcd n d : ℕ) : ℤ)) = 1
  exact Int.gcd_div_gcd_div_gcd (Int.gcd_pos_iff.mpr (Or.inr (by omega)))

theorem f64_to_fraction_eq (val : F64) :
    f64_to_fraction val =
      if fgt (fabs val) (.fin (i32MAX : ℚ)) then none
      else if (loopFinal val).d1 = 0 then none
      else if flt val (.fin 0) then
        some (mkRational32 (-((loopFinal val).n1 : ℤ)) ((loopFinal val).d1 : ℤ))
      else some (mkRational32 ((loopFinal val).n1 : ℤ) ((loopFinal val).d1 : ℤ)) := rfl

theorem exists_some_of_abs_le {x : ℚ} (hx : |x| ≤ 2147483647) :
    ∃ n d : ℤ, f64_to_fraction (F64.fin x) = some (n, d) ∧ 0 < d ∧
      (x < 0 → n ≤ 0) ∧ (0 ≤ x → 0 ≤ n) := by
  have hd1 := loopFinal_d1_pos hx
  have hdz : (0 : ℤ) < ((loopFinal (F64.fin x)).d1 : ℤ) := by exact_mod_cast hd1
  have hgt : fgt (fabs (F64.fin x)) (.fin (i32MAX : ℚ)) = false := by
    show decide ((i32MAX : ℚ) < |x|) = false
    rw [decide_eq_false_iff_not]
    push_neg
    have hM : ((i32MAX : ℕ) : ℚ) = 2147483647 := by norm_num [i32MAX]
    rw [hM]
    exact hx
  rw [f64_to_fraction_eq, hgt]
  rw [if_neg (by simp), if_neg (by omega : ¬(loopFinal (F64.fin x)).d1 = 0)]
  by_cases hneg : flt (F64.fin x) (F64.fin 0) = true
  · rw [if_pos hneg]
    refine ⟨_, _, rfl, mkRational32_den_pos hdz, ?_, ?_⟩
    · intro _
      exact mkRational32_num_nonpos hdz (by omega)
    · intro hx0
      have hlt : x < 0 := of_decide_eq_true hneg
      linarith
  · rw [if_neg hneg]
    refine ⟨_, _, rfl, mkRational32_den_pos hdz, ?_, ?_⟩
    · intro hx0
      have hnlt : ¬ x < 0 := of_decide_eq_false (bool_false_of_not hneg)
      exact absurd hx0 hnlt
    · intro _
      exact mkRational32_num_nonneg hdz (by omega)

/-!
The claims.
-/

/-- C1 (amended): for every finite double `x` with `|x|` within the signed
32-bit range, `f64_to_fraction x` returns `Some (n, d)` with `d > 0` and the
sign carried entirely by the numerator.  The accuracy part of the original
claim fails: for tiny inputs the result can be `0/1`, an error equal to `|x|`
itself (see the counterexample), so no tolerance proportional to `x`'s
magnitude holds. -/
theorem f64_to_fraction_some_pos_den_sign (x : ℚ) (hx : |x| ≤ 2147483647) :
    ∃ n d : ℤ, f64_to_fraction (F64.fin x) = some (n, d) ∧ 0 < d ∧
      (x < 0 → n ≤ 0) ∧ (0 ≤ x → 0 ≤ n) :=
  exists_some_of_abs_le hx

/-- Witness for C1 at the double `2.5`. -/
theorem f64_to_fraction_some_pos_den_sign_witness :
    |(5 / 2 : ℚ)| ≤ 2147483647 ∧
    ∃ n d : ℤ, f64_to_fraction (F64.fin (5 / 2)) = some (n, d) ∧ 0 < d ∧
      ((5 / 2 : ℚ) < 0 → n ≤ 0) ∧ ((0 : ℚ) ≤ 5 / 2 → 0 ≤ n) :=
  ⟨by rw [abs_of_nonneg (by norm_num : (0:ℚ) ≤ 5 / 2)]; norm_num,
    f64_to_fraction_some_pos_den_sign (5 / 2)
      (by rw [abs_of_nonneg (by norm_num : (0:ℚ) ≤ 5 / 2)]; norm_num)⟩

set_option maxRecDepth 40000 in
/-- C1 counterexample: at the exactly representable double `2⁻³³ ≈ 1.16e-10`
(which is above `EPSILON`), `f64_to_fraction` returns `0/1`, so the
approximation error equals `|x|` itself — the returned fraction carries no
information about `x`, refuting any error bound proportional to `x`'s
magnitude. -/
theorem f64_to_fraction_tiny_input_full_error :
    |(1 / 8589934592 : ℚ)| ≤ 2147483647 ∧
    f64_to_fraction (F64.fin (1 / 8589934592)) = some (0, 1) ∧
    ¬ (|(0 : ℚ) / 1 - 1 / 8589934592| < |(1 / 8589934592 : ℚ)|) := by decide

set_option maxRecDepth 40000 in
/-- C2: the literal scenarios of the spec, each as the exact double input:
`2.0 ↦ 2/1`, `2.5 ↦ 5/2`, `29.97 ↦ 2997/100`,
`0.127659574 ↦ 29013539/227272723` and `-2.5 ↦ -5/2`. -/
theorem f64_to_fraction_literal_scenarios :
    f64_to_fraction (F64.fin 2) = some (2, 1) ∧
    f64_to_fraction (F64.fin (5 / 2)) = some (5, 2) ∧
    f64_to_fraction (F64.fin (1054475631502295 / 35184372088832)) = some (2997, 100) ∧
    f64_to_fraction (F64.fin (2299710439586705 / 18014398509481984)) =
      some (29013539, 227272723) ∧
    f64_to_fraction (F64.fin (-(5 / 2))) = some (-5, 2) := by decide

/-- C3: any finite double whose absolute value exceeds `i32::MAX` is rejected
by the initial magnitude check, before any continued-fraction iteration. -/
theorem f64_to_fraction_overflow_none (x : ℚ) (hx : 2147483647 < |x|) :
    f64_to_fraction (F64.fin x) = none := by
  rw [f64_to_fraction_eq]
  have hgt : fgt (fabs (F64.fin x)) (.fin (i32MAX : ℚ)) = true := by
    show decide ((i32MAX : ℚ) < |x|) = true
    rw [decide_eq_true_iff]
    have hM : ((i32MAX : ℕ) : ℚ) = 2147483647 := by norm_num [i32MAX]
    rw [hM]
    exact hx
  rw [hgt, if_pos rfl]

/-- Witness for C3 at `2147483648 = i32::MAX + 1`. -/
theorem f64_to_fraction_overflow_none_witness :
    f64_to_fraction (F64.fin 2147483648) = none :=
  f64_to_fraction_overflow_none 2147483648
    (by rw [abs_of_pos (by norm_num : (0:ℚ) < 2147483648)]; norm_num)

/-- C4: for positive `a`, `b` the Euclidean `gcd` divides both arguments and
no larger common divisor exists. -/
theorem gcd_divides_and_greatest (a b : ℕ) (ha : 0 < a) (hb : 0 < b) :
    a % gcd a b = 0 ∧ b % gcd a b = 0 ∧
    ∀ c : ℕ, a % c = 0 → b % c = 0 → c ≤ gcd a b := by
  rw [gcd_eq_natGcd]
  have hg : 0 < Nat.gcd a b := Nat.gcd_pos_of_pos_left b ha
  set g : ℕ := Nat.gcd a b with hgdef
  refine ⟨?_, ?_, ?_⟩
  · obtain ⟨k, hk⟩ := (Nat.gcd_dvd_left a b : g ∣ a)
    rw [hk]
    exact Nat.mul_mod_right g k
  · obtain ⟨k, hk⟩ := (Nat.gcd_dvd_right a b : g ∣ b)
    rw [hk]
    exact Nat.mul_mod_right g k
  · intro c hca hcb
    rcases Nat.eq_zero_or_pos c with hc0 | hc
    · subst hc0
      rw [Nat.mod_zero] at hca
      omega
    · rw [hgdef]
      exact Nat.le_of_dvd (hgdef ▸ hg)
        (Nat.dvd_gcd (Nat.dvd_of_mod_eq_zero hca) (Nat.dvd_of_mod_eq_zero hcb))

/-- Witness for C4 at `a = 16`, `b = 24` (so `gcd = 8`). -/
theorem gcd_divides_and_greatest_witness :
    16 % gcd 16 24 = 0 ∧ 24 % gcd 16 24 = 0 ∧
    ∀ c : ℕ, 16 % c = 0 → 24 % c = 0 → c ≤ gcd 16 24 :=
  gcd_divides_and_greatest 16 24 (by decide) (by decide)

set_option maxRecDepth 40000 in
/-- C5 counterexample: at the double `0.127659574` (one of the spec's own
scenarios) the positive run exits early through the `MAX_ERROR` test, which
compares against the signed value; the negated input cannot take that exit and
keeps refining, returning a different pair, so `f64_to_fraction (-x)` is not
the numerator-negation of `f64_to_fraction x`. -/
theorem f64_to_fraction_sign_pair_mismatch :
    f64_to_fraction (F64.fin (2299710439586705 / 18014398509481984)) =
      some (29013539, 227272723) ∧
    f64_to_fraction (F64.fin (-(2299710439586705 / 18014398509481984))) =
      some (-214700191, 1681818169) ∧
    ((-214700191 : ℤ), (1681818169 : ℤ)) ≠ ((-(29013539 : ℤ)), (227272723 : ℤ)) := by
  decide

/-- C5 (amended): both `x` and `-x` succeed with positive denominators and the
sign carried by the numerator (`≥ 0` for `x > 0`, `≤ 0` for `-x`), but the two
pairs need not coincide (see the counterexample). -/
theorem f64_to_fraction_sign_direction (x : ℚ) (h0 : 0 < x) (hx : x ≤ 2147483647) :
    ∃ np dp nn dn : ℤ,
      f64_to_fraction (F64.fin x) = some (np, dp) ∧
      f64_to_fraction (F64.fin (-x)) = some (nn, dn) ∧
      0 ≤ np ∧ nn ≤ 0 ∧ 0 < dp ∧ 0 < dn := by
  have hax : |x| ≤ 2147483647 := by rw [abs_of_pos h0]; exact hx
  have hax2 : |(-x)| ≤ 2147483647 := by rw [abs_neg]; exact hax
  obtain ⟨np, dp, hp, hdp, _, hsp⟩ := exists_some_of_abs_le hax
  obtain ⟨nn, dn, hn, hdn, hsn, _⟩ := exists_some_of_abs_le hax2
  exact ⟨np, dp, nn, dn, hp, hn, hsp h0.le, hsn (by linarith), hdp, hdn⟩

/-- Witness for C5 at `x = 2`. -/
theorem f64_to_fraction_sign_direction_witness :
    (0 : ℚ) < 2 ∧ (2 : ℚ) ≤ 2147483647 ∧
    ∃ np dp nn dn : ℤ,
      f64_to_fraction (F64.fin 2) = some (np, dp) ∧
      f64_to_fraction (F64.fin (-2)) = some (nn, dn) ∧
      0 ≤ np ∧ nn ≤ 0 ∧ 0 < dp ∧ 0 < dn :=
  ⟨by norm_num, by norm_num,
    f64_to_fraction_sign_direction 2 (by norm_num) (by norm_num)⟩

/-- C6: `f64_to_fraction` never panics: the two post-loop assertions
`n1 ≤ i32::MAX` and `d1 ≤ i32::MAX` hold on every input (the overflow guard
keeps all convergents bounded), and any `Rational32` it builds has a positive
denominator (the `d1 == 0` case returns `None` first; the mid-loop gcd
division is reached only under the `g != 0` test of the source). -/
theorem f64_to_fraction_no_panic (v : F64) :
    (loopFinal v).n1 ≤ i32MAX ∧ (loopFinal v).d1 ≤ i32MAX ∧
    ∀ n d : ℤ, f64_to_fraction v = some (n, d) → 0 < d := by
  have hb := runLoop_bounds v MAX_ITERATIONS (initState (fabs v))
    ⟨by show (0:ℕ) ≤ i32MAX; decide, by show (1:ℕ) ≤ i32MAX; decide,
      by show (1:ℕ) ≤ i32MAX; decide, by show (0:ℕ) ≤ i32MAX; decide⟩
  refine ⟨hb.2.2.1, hb.2.2.2, ?_⟩
  intro n d h
  rw [f64_to_fraction_eq] at h
  by_cases h1 : fgt (fabs v) (.fin (i32MAX : ℚ)) = true
  · rw [h1, if_pos rfl] at h
    exact absurd h (by simp)
  · rw [bool_false_of_not h1, if_neg (by simp)] at h
    by_cases h2 : (loopFinal v).d1 = 0
    · rw [if_pos h2] at h
      exact absurd h (by simp)
    · rw [if_neg h2] at h
      have hdz : (0 : ℤ) < ((loopFinal v).d1 : ℤ) := by
        have := Nat.pos_of_ne_zero h2
        exact_mod_cast this
      by_cases h3 : flt v (.fin 0) = true
      · rw [if_pos h3] at h
        have hpos := mkRational32_den_pos (n := -((loopFinal v).n1 : ℤ)) hdz
        have h' := Option.some.inj h
        rw [Prod.ext_iff] at h'
        show 0 < (n, d).2
        rw [← h'.2]
        exact hpos
      · rw [if_neg h3] at h
        have hpos := mkRational32_den_pos (n := ((loopFinal v).n1 : ℤ)) hdz
        have h' := Option.some.inj h
        rw [Prod.ext_iff] at h'
        show 0 < (n, d).2
        rw [← h'.2]
        exact hpos

set_option maxRecDepth 40000 in
/-- Witness for C6 at the double `2.0`. -/
theorem f64_to_fraction_no_panic_witness :
    (loopFinal (F64.fin 2)).n1 ≤ i32MAX ∧ (loopFinal (F64.fin 2)).d1 ≤ i32MAX ∧
    (0 : ℤ) < 1 :=
  ⟨(f64_to_fraction_no_panic (F64.fin 2)).1,
    (f64_to_fraction_no_panic (F64.fin 2)).2.1,
    (f64_to_fraction_no_panic (F64.fin 2)).2.2 2 1 (by decide)⟩

/-- C7: the refinement loop of `f64_to_fraction` executes at most 30
iterations on every input — `f64_to_fraction` runs the loop body exactly
`MAX_ITERATIONS = 30` times with a freeze flag, so the cap is the only bound
on execution length. -/
theorem f64_to_fraction_iteration_cap (v : F64) :
    itersUsed v ≤ 30 ∧ loopFinal v = runLoop v MAX_ITERATIONS (initState (fabs v)) ∧
    MAX_ITERATIONS = 30 :=
  ⟨itersUsedAux_le v MAX_ITERATIONS (initState (fabs v)), rfl, rfl⟩

/-- C8: the source `gcd` is commutative, `gcd a 0 = a` for every `a`, and
`gcd 0 0 = 0`. -/
theorem gcd_comm_zero_identity (a b : ℕ) :
    gcd a b = gcd b a ∧ gcd a 0 = a ∧ gcd 0 0 = 0 := by
  refine ⟨?_, rfl, rfl⟩
  rw [gcd_eq_natGcd, gcd_eq_natGcd, Nat.gcd_comm]

set_option maxRecDepth 40000 in
/-- C9: non-finite inputs produce `None` without panicking: the infinities are
caught by the initial magnitude check, while NaN slips past it (IEEE
comparisons with NaN are false), casts to 0 at every `as u32`, cycles through
all 30 iterations, and ends with `d1 = 0`, which is turned into `None`. -/
theorem f64_to_fraction_nonfinite_none :
    f64_to_fraction F64.nan = none ∧ f64_to_fraction F64.inf = none ∧
    f64_to_fraction F64.ninf = none ∧
    fgt (fabs F64.nan) (F64.fin (i32MAX : ℚ)) = false ∧
    castU32 F64.nan = 0 ∧ itersUsed F64.nan = 30 ∧ (loopFinal F64.nan).d1 = 0 := by
  decide

/-- C10: every successful result of `f64_to_fraction` is in lowest terms with
a positive denominator, because the returned pair is built by
`Rational32::new`, which divides by the gcd and normalizes the sign. -/
theorem f64_to_fraction_lowest_terms (v : F64) (n d : ℤ)
    (h : f64_to_fraction v = some (n, d)) : Int.gcd n d = 1 ∧ 0 < d := by
  rw [f64_to_fraction_eq] at h
  by_cases h1 : fgt (fabs v) (.fin (i32MAX : ℚ)) = true
  · rw [h1, if_pos rfl] at h
    exact absurd h (by simp)
  · rw [bool_false_of_not h1, if_neg (by simp)] at h
    by_cases h2 : (loopFinal v).d1 = 0
    · rw [if_pos h2] at h
      exact absurd h (by simp)
    · rw [if_neg h2] at h
      have hdz : (0 : ℤ) < ((loopFinal v).d1 : ℤ) := by
        have := Nat.pos_of_ne_zero h2
        exact_mod_cast this
      by_cases h3 : flt v (.fin 0) = true
      · rw [if_pos h3] at h
        have h' := Option.some.inj h
        rw [Prod.ext_iff] at h'
        show Int.gcd (n, d).1 (n, d).2 = 1 ∧ 0 < (n, d).2
        rw [← h'.1, ← h'.2]
        exact ⟨mkRational32_coprime hdz, mkRational32_den_pos hdz⟩
      · rw [if_neg h3] at h
        have h' := Option.some.inj h
        rw [Prod.ext_iff] at h'
        show Int.gcd (n, d).1 (n, d).2 = 1 ∧ 0 < (n, d).2
        rw [← h'.1, ← h'.2]
        exact ⟨mkRational32_coprime hdz, mkRational32_den_pos hdz⟩

set_option maxRecDepth 40000 in
/-- Witness for C10 at the double `29.97`, whose result is `2997/100`. -/
theorem f64_to_fraction_lowest_terms_witness :
    Int.gcd 2997 100 = 1 ∧ (0 : ℤ) < 100 :=
  f64_to_fraction_lowest_terms (F64.fin (1054475631502295 / 35184372088832)) 2997 100
    (by decide)

end GstPlugin
